import Mathlib

set_option maxHeartbeats 1000000

/-
Verification of the token construction and signing core of the jwt
repository (sign.go).

Modelling conventions:
 - a byte is a `Nat` below 256; byte sequences built by appends are
   `List Nat`;
 - buffers the Go code mutates in place are functions `Nat → Nat`
   (`Mem`), with region lengths carried separately;
 - index arithmetic that can panic in Go (slice indexing out of range)
   is modelled with `Option`: `none` is a run-time panic;
 - the pieces of the repository that are not part of sign.go (the
   base64url codec, the claims serializer `sync`, the algorithm tables
   and `strconv.AppendQuote`) are modelled from the spec, as marked on
   each definition.
-/

namespace JwtSign

/-- Modelled from the spec: `encoding.EncodedLen` of the external base64url
codec (RFC 4648 URL-safe alphabet, no padding): the encoded length of `n`
raw bytes. -/
def EncodedLen (n : Nat) : Nat := (n * 8 + 5) / 6

/-- Modelled from the spec: the base64url alphabet character (as a byte)
for a 6-bit value. -/
def b64char (n : Nat) : Nat :=
  if n < 26 then 65 + n
  else if n < 52 then 97 + (n - 26)
  else if n < 62 then 48 + (n - 52)
  else if n = 62 then 45
  else 95

/-- Modelled from the spec: `encoding.Encode` of the external base64url
codec as a pure function on byte lists, processing the source strictly
sequentially in 3-byte groups that produce 4-byte groups, with 2- or
3-byte output for a trailing 1- or 2-byte group and no padding. -/
def Encode : List Nat → List Nat
  | b0 :: b1 :: b2 :: rest =>
      b64char (b0 / 4) :: b64char (b0 % 4 * 16 + b1 / 16) ::
      b64char (b1 % 16 * 4 + b2 / 64) :: b64char (b2 % 64) :: Encode rest
  | [b0, b1] => [b64char (b0 / 4), b64char (b0 % 4 * 16 + b1 / 16), b64char (b1 % 16 * 4)]
  | [b0] => [b64char (b0 / 4), b64char (b0 % 4 * 16)]
  | [] => []

/-- Membership in the base64url alphabet (A-Z, a-z, 0-9, minus, underscore). -/
def isB64url (c : Nat) : Bool :=
  (65 ≤ c && c ≤ 90) || (97 ≤ c && c ≤ 122) || (48 ≤ c && c ≤ 57) || c == 45 || c == 95

/-- UTF-8/ASCII bytes of a string (all strings in the model are ASCII). -/
def strBytes (s : String) : List Nat := s.data.map Char.toNat

/-- A mutable byte buffer, addressed by `Nat` offsets. -/
abbrev Mem := Nat → Nat

/-- Store one byte in a buffer. -/
def wr (m : Mem) (i v : Nat) : Mem := fun j => if j = i then v else m j

/-- Read `n` consecutive bytes starting at `off` as a list. -/
def readList (m : Mem) (off n : Nat) : List Nat :=
  (List.range n).map (fun j => m (off + j))

theorem length_readList (m : Mem) (off n : Nat) : (readList m off n).length = n := by
  simp [readList]

theorem readList_zero (m : Mem) (off : Nat) : readList m off 0 = [] := by
  simp [readList]

theorem readList_succ (m : Mem) (off n : Nat) :
    readList m off (n + 1) = m off :: readList m (off + 1) n := by
  simp only [readList, List.range_succ_eq_map, List.map_cons, List.map_map]
  have h0 : off + 0 = off := by omega
  rw [h0]
  congr 1
  apply List.map_congr_left
  intro a _
  simp only [Function.comp_apply]
  congr 1
  omega

theorem readList_congr {m m' : Mem} (off n : Nat)
    (h : ∀ j, off ≤ j → j < off + n → m j = m' j) :
    readList m off n = readList m' off n := by
  simp only [readList]
  apply List.map_congr_left
  intro a ha
  exact h (off + a) (Nat.le_add_right _ _) (by simpa using List.mem_range.mp ha)

theorem getD_readList (m : Mem) (off n j : Nat) (hj : j < n) :
    (readList m off n).getD j 0 = m (off + j) := by
  unfold readList
  rw [List.getD_eq_getElem _ 0 (by simp [hj])]
  simp

/-- Extensionality for byte lists through `getD`. -/
theorem list_ext_getD {l1 l2 : List Nat} (hlen : l1.length = l2.length)
    (h : ∀ j, j < l1.length → l1.getD j 0 = l2.getD j 0) : l1 = l2 := by
  apply List.ext_getElem hlen
  intro i h1 h2
  have hh := h i h1
  rwa [List.getD_eq_getElem _ 0 h1, List.getD_eq_getElem _ 0 h2] at hh

/-- `EncodedLen` grows by 4 for every 3 raw bytes. -/
theorem EncodedLen_add_three (n : Nat) : EncodedLen (n + 3) = EncodedLen n + 4 := by
  simp only [EncodedLen]
  omega

theorem EncodedLen_ge (n : Nat) : n ≤ EncodedLen n := by
  show n ≤ (n * 8 + 5) / 6
  omega

theorem EncodedLen_gt (n : Nat) (h : 1 ≤ n) : n + 1 ≤ EncodedLen n := by
  show n + 1 ≤ (n * 8 + 5) / 6
  omega

theorem length_Encode (l : List Nat) : (Encode l).length = EncodedLen l.length := by
  match l with
  | b0 :: b1 :: b2 :: rest =>
      rw [Encode]
      simp only [List.length_cons, length_Encode rest]
      simp only [EncodedLen]
      omega
  | [b0, b1] => simp [Encode, EncodedLen]
  | [b0] => simp [Encode, EncodedLen]
  | [] => simp [Encode, EncodedLen]

theorem b64char_isB64url (n : Nat) : isB64url (b64char n) = true := by
  unfold b64char isB64url
  split_ifs <;> simp <;> omega

theorem Encode_isB64url (l : List Nat) : ∀ c ∈ Encode l, isB64url c = true := by
  match l with
  | b0 :: b1 :: b2 :: rest =>
      rw [Encode]
      intro c hc
      simp only [List.mem_cons] at hc
      rcases hc with rfl | rfl | rfl | rfl | h
      · exact b64char_isB64url _
      · exact b64char_isB64url _
      · exact b64char_isB64url _
      · exact b64char_isB64url _
      · exact Encode_isB64url rest c h
  | [b0, b1] =>
      intro c hc
      simp only [Encode, List.mem_cons, List.not_mem_nil, or_false] at hc
      rcases hc with rfl | rfl | rfl <;> exact b64char_isB64url _
  | [b0] =>
      intro c hc
      simp only [Encode, List.mem_cons, List.not_mem_nil, or_false] at hc
      rcases hc with rfl | rfl <;> exact b64char_isB64url _
  | [] => intro c hc; simp [Encode] at hc

/-- Algorithm identifier constants (spec section 4.1). -/
def EdDSA : String := "EdDSA"

def ES256 : String := "ES256"

def ES384 : String := "ES384"

def ES512 : String := "ES512"

def HS256 : String := "HS256"

def HS384 : String := "HS384"

def HS512 : String := "HS512"

def PS256 : String := "PS256"

def PS384 : String := "PS384"

def PS512 : String := "PS512"

def RS256 : String := "RS256"

def RS384 : String := "RS384"

def RS512 : String := "RS512"

/-- Hex digit byte (lowercase) for a value below 16. -/
def hexDigit (n : Nat) : Nat := if n < 10 then 48 + n else 87 + n

/-- Modelled from the spec: `strconv.AppendQuote` — one character of a
JSON-string-escaped value. Quote and backslash are escaped, printable
ASCII is passed through, anything else becomes a hex escape (the claims
only exercise printable ASCII, where the escaping is fully determined). -/
def quoteChar (c : Nat) : List Nat :=
  if c = 34 then [92, 34]
  else if c = 92 then [92, 92]
  else if 32 ≤ c ∧ c < 127 then [c]
  else [92, 117, 48, 48, hexDigit (c / 16), hexDigit (c % 16)]

/-- Modelled from the spec: `strconv.AppendQuote` — a double-quoted,
JSON-string-escaped form of `s`. -/
def AppendQuote (s : String) : List Nat :=
  34 :: ((strBytes s).map quoteChar).flatten ++ [34]

/-- The slow-path header JSON of `newToken` (sign.go lines 201-213):
`´{"kid":<quoted>,"alg":<quoted>}´` when the key id is non-empty, else
`´{"alg":<quoted>}´`. -/
def headerJSONFor (kid alg : String) : List Nat :=
  if kid = "" then strBytes "\x7b\"alg\":" ++ AppendQuote alg ++ [125]
  else strBytes "\x7b\"kid\":" ++ AppendQuote kid ++ strBytes ",\"alg\":" ++
    AppendQuote alg ++ [125]

/-- The fixed header table of `newToken` (sign.go lines 161-190): the
precomputed `base64url(´{"alg":"<ALG>"}´) ++ "."` constants. -/
def fixedFor (alg : String) : Option (List Nat) :=
  if alg = EdDSA then some (strBytes "eyJhbGciOiJFZERTQSJ9.")
  else if alg = ES256 then some (strBytes "eyJhbGciOiJFUzI1NiJ9.")
  else if alg = ES384 then some (strBytes "eyJhbGciOiJFUzM4NCJ9.")
  else if alg = ES512 then some (strBytes "eyJhbGciOiJFUzUxMiJ9.")
  else if alg = HS256 then some (strBytes "eyJhbGciOiJIUzI1NiJ9.")
  else if alg = HS384 then some (strBytes "eyJhbGciOiJIUzM4NCJ9.")
  else if alg = HS512 then some (strBytes "eyJhbGciOiJIUzUxMiJ9.")
  else if alg = PS256 then some (strBytes "eyJhbGciOiJQUzI1NiJ9.")
  else if alg = PS384 then some (strBytes "eyJhbGciOiJQUzM4NCJ9.")
  else if alg = PS512 then some (strBytes "eyJhbGciOiJQUzUxMiJ9.")
  else if alg = RS256 then some (strBytes "eyJhbGciOiJSUzI1NiJ9.")
  else if alg = RS384 then some (strBytes "eyJhbGciOiJSUzM4NCJ9.")
  else if alg = RS512 then some (strBytes "eyJhbGciOiJSUzUxMiJ9.")
  else none

/-- The thirteen algorithm identifiers of the fixed header table. -/
def fixedAlgs : List String :=
  [EdDSA, ES256, ES384, ES512, HS256, HS384, HS512,
   PS256, PS384, PS512, RS256, RS384, RS512]

/-- The slow path of `newToken` (sign.go lines 215-223): content is
`encode(headerJSON) ++ "." ++ encode(raw)`, capacity is
`len + 1 + encSigLen`. The first component is the logical content
(`token[:len]`), the second the capacity of the single allocation. -/
def newTokenSlow (hJSON raw : List Nat) (encSigLen : Nat) : List Nat × Nat :=
  (Encode hJSON ++ [46] ++ Encode raw,
   EncodedLen hJSON.length + 1 + EncodedLen raw.length + 1 + encSigLen)

/-- `newToken` (sign.go lines 159-224). `raw` models `c.Raw`, `kid` models
`c.KeyID`, `headerJSON` is the override passed by the caller (`none`
models a nil slice). Returns the logical content and the capacity. -/
def newToken (alg kid : String) (raw : List Nat) (encSigLen : Nat)
    (headerJSON : Option (List Nat)) : List Nat × Nat :=
  match headerJSON with
  | some hj => newTokenSlow hj raw encSigLen
  | none =>
    if kid = "" then
      match fixedFor alg with
      | some fixed =>
          (fixed ++ Encode raw, fixed.length + EncodedLen raw.length + 1 + encSigLen)
      | none => newTokenSlow (headerJSONFor kid alg) raw encSigLen
    else newTokenSlow (headerJSONFor kid alg) raw encSigLen

/-- The header JSON that determines the encoded header segment of a
`newToken` call: the caller-supplied override, else the slow-path JSON. -/
def effHeader (alg kid : String) (headerJSON : Option (List Nat)) : List Nat :=
  headerJSON.getD (headerJSONFor kid alg)

/-- Each fixed header table entry equals the base64url encoding of the
slow-path header JSON for an empty key id, followed by the dot. -/
theorem fixedFor_spec (alg : String) (fx : List Nat) (h : fixedFor alg = some fx) :
    fx = Encode (headerJSONFor "" alg) ++ [46] := by
  by_cases h1 : alg = EdDSA
  · subst h1
    have e : fixedFor EdDSA = some (strBytes "eyJhbGciOiJFZERTQSJ9.") := by decide
    rw [e] at h; cases h; decide
  by_cases h2 : alg = ES256
  · subst h2
    have e : fixedFor ES256 = some (strBytes "eyJhbGciOiJFUzI1NiJ9.") := by decide
    rw [e] at h; cases h; decide
  by_cases h3 : alg = ES384
  · subst h3
    have e : fixedFor ES384 = some (strBytes "eyJhbGciOiJFUzM4NCJ9.") := by decide
    rw [e] at h; cases h; decide
  by_cases h4 : alg = ES512
  · subst h4
    have e : fixedFor ES512 = some (strBytes "eyJhbGciOiJFUzUxMiJ9.") := by decide
    rw [e] at h; cases h; decide
  by_cases h5 : alg = HS256
  · subst h5
    have e : fixedFor HS256 = some (strBytes "eyJhbGciOiJIUzI1NiJ9.") := by decide
    rw [e] at h; cases h; decide
  by_cases h6 : alg = HS384
  · subst h6
    have e : fixedFor HS384 = some (strBytes "eyJhbGciOiJIUzM4NCJ9.") := by decide
    rw [e] at h; cases h; decide
  by_cases h7 : alg = HS512
  · subst h7
    have e : fixedFor HS512 = some (strBytes "eyJhbGciOiJIUzUxMiJ9.") := by decide
    rw [e] at h; cases h; decide
  by_cases h8 : alg = PS256
  · subst h8
    have e : fixedFor PS256 = some (strBytes "eyJhbGciOiJQUzI1NiJ9.") := by decide
    rw [e] at h; cases h; decide
  by_cases h9 : alg = PS384
  · subst h9
    have e : fixedFor PS384 = some (strBytes "eyJhbGciOiJQUzM4NCJ9.") := by decide
    rw [e] at h; cases h; decide
  by_cases h10 : alg = PS512
  · subst h10
    have e : fixedFor PS512 = some (strBytes "eyJhbGciOiJQUzUxMiJ9.") := by decide
    rw [e] at h; cases h; decide
  by_cases h11 : alg = RS256
  · subst h11
    have e : fixedFor RS256 = some (strBytes "eyJhbGciOiJSUzI1NiJ9.") := by decide
    rw [e] at h; cases h; decide
  by_cases h12 : alg = RS384
  · subst h12
    have e : fixedFor RS384 = some (strBytes "eyJhbGciOiJSUzM4NCJ9.") := by decide
    rw [e] at h; cases h; decide
  by_cases h13 : alg = RS512
  · subst h13
    have e : fixedFor RS512 = some (strBytes "eyJhbGciOiJSUzUxMiJ9.") := by decide
    rw [e] at h; cases h; decide
  rw [fixedFor] at h
  rw [if_neg h1, if_neg h2, if_neg h3, if_neg h4, if_neg h5, if_neg h6, if_neg h7,
    if_neg h8, if_neg h9, if_neg h10, if_neg h11, if_neg h12, if_neg h13] at h
  cases h

theorem newTokenSlow_spec (hj raw : List Nat) (encSigLen : Nat) :
    (newTokenSlow hj raw encSigLen).1 = Encode hj ++ [46] ++ Encode raw ∧
    (newTokenSlow hj raw encSigLen).2 =
      (newTokenSlow hj raw encSigLen).1.length + 1 + encSigLen := by
  constructor
  · simp [newTokenSlow]
  · simp [newTokenSlow, length_Encode]
    omega

/-- The content and capacity of every `newToken` call, uniformly over the
fast and slow paths. -/
theorem newToken_spec (alg kid : String) (raw : List Nat) (encSigLen : Nat)
    (headerJSON : Option (List Nat)) :
    (newToken alg kid raw encSigLen headerJSON).1 =
      Encode (effHeader alg kid headerJSON) ++ [46] ++ Encode raw ∧
    (newToken alg kid raw encSigLen headerJSON).2 =
      (newToken alg kid raw encSigLen headerJSON).1.length + 1 + encSigLen := by
  match headerJSON with
  | some hj => exact newTokenSlow_spec hj raw encSigLen
  | none =>
      show (newToken alg kid raw encSigLen none).1 =
          Encode (headerJSONFor kid alg) ++ [46] ++ Encode raw ∧ _
      unfold newToken
      by_cases hk : kid = ""
      · subst hk
        simp only [if_true]
        cases hfx : fixedFor alg with
        | none => exact newTokenSlow_spec _ raw encSigLen
        | some fx =>
            have hfx2 := fixedFor_spec alg fx hfx
            subst hfx2
            constructor
            · simp
            · simp [length_Encode]
              omega
      · simp only [if_neg hk]
        exact newTokenSlow_spec _ raw encSigLen


/-! ## ECDSA raw-signature staging (sign.go lines 49-66)

`big.Int.Bits()` yields the minimal little-endian machine-word
decomposition of a non-negative integer; the packing loop writes each
word's bytes at decreasing indices. `wb` is the machine word size in
bytes (`strconv.IntSize / 8`, 4 or 8). -/

/-- Minimal little-endian base-`2^w` word list of `n` (fuel-driven; the
fuel `n` itself always suffices for `w ≥ 1`). Models `big.Int.Bits()`. -/
def natWordsAux : Nat → Nat → Nat → List Nat
  | 0, _, _ => []
  | _ + 1, _, 0 => []
  | fuel + 1, w, n + 1 => ((n + 1) % 2 ^ w) :: natWordsAux fuel w ((n + 1) / 2 ^ w)

def natWords (w n : Nat) : List Nat := natWordsAux n w n

/-- The inner byte loop of the packing (one machine word, `k` bytes left):
`i--; sig[i] = byte(word); word >>= 8`. `none` models the out-of-range
panic. -/
def writeWordBytes : Nat → Nat → Mem → Nat → Nat → Option (Mem × Nat)
  | 0, _, m, i, _ => some (m, i)
  | k + 1, word, m, i, len =>
      if 1 ≤ i ∧ i ≤ len then
        writeWordBytes k (word / 256) (wr m (i - 1) (word % 256)) (i - 1) len
      else none

/-- The outer loop over the words of one big integer. -/
def writeWordsLoop : List Nat → Mem → Nat → Nat → Nat → Option (Mem × Nat)
  | [], m, i, _, _ => some (m, i)
  | w :: ws, m, i, wb, len =>
      match writeWordBytes wb w m i len with
      | none => none
      | some (m', i') => writeWordsLoop ws m' i' wb len

/-- The raw-signature staging of `ECDSASign` (sign.go lines 49-66): pack
the words of `s` at the tail of `sig` starting at `i = len(sig)`, then
reset `i = len(sig) - paramLen` and pack the words of `r`. -/
def ecdsaStageRaw (wb paramLen r s : Nat) (m : Mem) (len : Nat) : Option Mem :=
  (writeWordsLoop (natWords (8 * wb) s) m len wb len).bind fun s1 =>
    (writeWordsLoop (natWords (8 * wb) r) s1.1 (len - paramLen) wb len).map Prod.fst

/-- The staged raw bytes of an `ECDSASign` call: the final `2*paramLen`
bytes of the tail region after both packing loops. -/
def stagedBytes (wb paramLen r s : Nat) (m : Mem) (len : Nat) : Option (List Nat) :=
  (ecdsaStageRaw wb paramLen r s m len).map
    (fun m2 => readList m2 (len - 2 * paramLen) (2 * paramLen))

/-- Modelled from the spec: the byte-oriented fixed-width big-endian
encoding — "write the absolute value's big-endian bytes, left-zero-padded
to `paramLen`". -/
def bePad : Nat → Nat → List Nat
  | 0, _ => []
  | k + 1, n => n / 256 ^ k % 256 :: bePad k n

theorem length_bePad (k n : Nat) : (bePad k n).length = k := by
  induction k generalizing n with
  | zero => rfl
  | succ k ih => simp [bePad, ih]

theorem getD_bePad (k n j : Nat) (hj : j < k) :
    (bePad k n).getD j 0 = n / 256 ^ (k - 1 - j) % 256 := by
  induction k generalizing n j with
  | zero => omega
  | succ k ih =>
      match j with
      | 0 => simp [bePad]
      | j + 1 =>
          have hj' : j < k := by omega
          have he : k + 1 - 1 - (j + 1) = k - 1 - j := by omega
          rw [he]
          simpa [bePad, List.getD_cons_succ] using ih n j hj'

theorem natWordsAux_zero_n (fuel w : Nat) : natWordsAux fuel w 0 = [] := by
  cases fuel <;> rfl

theorem natWordsAux_fuel (w : Nat) (hw : 1 ≤ w) :
    ∀ n f f', n ≤ f → n ≤ f' → natWordsAux f w n = natWordsAux f' w n := by
  intro n
  induction n using Nat.strong_induction_on with
  | _ n ih =>
      intro f f' hf hf'
      match n, f, f' with
      | 0, f, f' => rw [natWordsAux_zero_n, natWordsAux_zero_n]
      | n + 1, f + 1, f' + 1 =>
          show ((n + 1) % 2 ^ w) :: natWordsAux f w ((n + 1) / 2 ^ w) =
            ((n + 1) % 2 ^ w) :: natWordsAux f' w ((n + 1) / 2 ^ w)
          have hd : (n + 1) / 2 ^ w < n + 1 :=
            Nat.div_lt_self (Nat.succ_pos n) (Nat.one_lt_two_pow (by omega))
          rw [ih ((n + 1) / 2 ^ w) hd f f' (by omega) (by omega)]

theorem natWords_zero (w : Nat) : natWords w 0 = [] := rfl

theorem natWords_succ (w n : Nat) (hw : 1 ≤ w) (hn : n ≠ 0) :
    natWords w n = (n % 2 ^ w) :: natWords w (n / 2 ^ w) := by
  match n with
  | n + 1 =>
      show natWordsAux (n + 1) w (n + 1) = _
      have hd : (n + 1) / 2 ^ w < n + 1 :=
        Nat.div_lt_self (Nat.succ_pos n) (Nat.one_lt_two_pow (by omega))
      show ((n + 1) % 2 ^ w) :: natWordsAux n w ((n + 1) / 2 ^ w) = _
      rw [natWordsAux_fuel w hw ((n + 1) / 2 ^ w) n ((n + 1) / 2 ^ w) (by omega) le_rfl]
      rfl

/-- A number is below `2^w` to the power of its word count. -/
theorem natWords_lt (w : Nat) (hw : 1 ≤ w) :
    ∀ n, n < 2 ^ (w * (natWords w n).length) := by
  intro n
  induction n using Nat.strong_induction_on with
  | _ n ih =>
      by_cases hn : n = 0
      · subst hn; simp [natWords_zero]
      · rw [natWords_succ w n hw hn]
        simp only [List.length_cons]
        have hd : n / 2 ^ w < n :=
          Nat.div_lt_self (Nat.pos_of_ne_zero hn) (Nat.one_lt_two_pow (by omega))
        have h2 : n / 2 ^ w < 2 ^ (w * (natWords w (n / 2 ^ w)).length) := ih (n / 2 ^ w) hd
        have h3 : n < 2 ^ (w * (natWords w (n / 2 ^ w)).length) * 2 ^ w :=
          (Nat.div_lt_iff_lt_mul (Nat.pos_pow_of_pos w (by omega))).mp h2
        calc n < 2 ^ (w * (natWords w (n / 2 ^ w)).length) * 2 ^ w := h3
          _ = 2 ^ (w * ((natWords w (n / 2 ^ w)).length + 1)) := by
              rw [← Nat.pow_add]; ring_nf

/-- Word-count minimality: if `n < 2^(w*t)` then `n` has at most `t` words. -/
theorem natWords_length_le (w : Nat) (hw : 1 ≤ w) :
    ∀ n t, n < 2 ^ (w * t) → (natWords w n).length ≤ t := by
  intro n
  induction n using Nat.strong_induction_on with
  | _ n ih =>
      intro t hnt
      by_cases hn : n = 0
      · subst hn; simp [natWords_zero]
      · rw [natWords_succ w n hw hn]
        simp only [List.length_cons]
        match t with
        | 0 =>
            exfalso
            simp at hnt
            omega
        | t + 1 =>
            have hd : n / 2 ^ w < n :=
              Nat.div_lt_self (Nat.pos_of_ne_zero hn) (Nat.one_lt_two_pow (by omega))
            have h1 : n / 2 ^ w < 2 ^ (w * t) := by
              apply (Nat.div_lt_iff_lt_mul (Nat.pos_pow_of_pos w (by omega))).mpr
              calc n < 2 ^ (w * (t + 1)) := hnt
                _ = 2 ^ (w * t) * 2 ^ w := by rw [← Nat.pow_add]; ring_nf
            have := ih (n / 2 ^ w) hd t h1
            omega


theorem pow256 (wb : Nat) : 2 ^ (8 * wb) = 256 ^ wb := by
  rw [Nat.pow_mul]

/-- Dropping the high words of a number does not change a byte inside the
low `wb`-byte word. -/
theorem mod_word_byte (n wb t : Nat) (ht : t < wb) :
    n % 2 ^ (8 * wb) / 256 ^ t % 256 = n / 256 ^ t % 256 := by
  rw [pow256]
  have hsplit : (256 : Nat) ^ wb = 256 ^ t * 256 ^ (wb - t) := by
    rw [← Nat.pow_add]
    congr 1
    omega
  rw [hsplit, Nat.mod_mul_right_div_self]
  have hdvd : (256 : Nat) ∣ 256 ^ (wb - t) := dvd_pow_self 256 (by omega)
  rw [Nat.mod_mod_of_dvd _ hdvd]

/-- One full word write: `k` bytes of `word` land big-endian at positions
`i-k .. i-1`, the cursor moves to `i-k`, and nothing else changes. -/
theorem writeWordBytes_spec (k : Nat) :
    ∀ (word : Nat) (m : Mem) (i len : Nat), k ≤ i → i ≤ len →
    writeWordBytes k word m i len =
      some (fun j => if i - k ≤ j ∧ j < i then word / 256 ^ (i - 1 - j) % 256 else m j,
        i - k) := by
  induction k with
  | zero =>
      intro word m i len _ _
      show some (m, i) = _
      have hf : (fun j => if i - 0 ≤ j ∧ j < i then word / 256 ^ (i - 1 - j) % 256 else m j)
          = m := by
        funext j
        rw [if_neg (by omega)]
      rw [hf]
      simp
  | succ k ih =>
      intro word m i len hk hi
      rw [writeWordBytes, if_pos ⟨by omega, hi⟩]
      rw [ih (word / 256) (wr m (i - 1) (word % 256)) (i - 1) len (by omega) (by omega)]
      have hidx : i - 1 - k = i - (k + 1) := by omega
      have hfun : (fun j => if i - 1 - k ≤ j ∧ j < i - 1
            then word / 256 / 256 ^ (i - 1 - 1 - j) % 256
            else wr m (i - 1) (word % 256) j)
          = fun j => if i - (k + 1) ≤ j ∧ j < i then word / 256 ^ (i - 1 - j) % 256
            else m j := by
        funext j
        by_cases hj1 : i - 1 - k ≤ j ∧ j < i - 1
        · have hc2 : i - (k + 1) ≤ j ∧ j < i := by omega
          rw [if_pos hj1, if_pos hc2]
          rw [Nat.div_div_eq_div_mul, ← Nat.pow_succ']
          have hexp : (i - 1 - 1 - j).succ = i - 1 - j := by omega
          rw [hexp]
        · rw [if_neg hj1]
          by_cases hj2 : j = i - 1
          · subst hj2
            have hwr : wr m (i - 1) (word % 256) (i - 1) = word % 256 := by
              simp [wr]
            have hc2 : i - (k + 1) ≤ i - 1 ∧ i - 1 < i := by omega
            rw [hwr, if_pos hc2]
            have he : i - 1 - (i - 1) = 0 := by omega
            rw [he, Nat.pow_zero, Nat.div_one]
          · have hwr : wr m (i - 1) (word % 256) j = m j := by
              simp [wr, hj2]
            have hc2 : ¬(i - (k + 1) ≤ j ∧ j < i) := by omega
            rw [hwr, if_neg hc2]
      rw [hfun, hidx]

/-- Packing all words of `n` from cursor `i` downwards: the bytes of `n`
land big-endian at positions `i - wb*count .. i-1`. -/
theorem writeWordsLoop_num (wb : Nat) (hwb : 1 ≤ wb) :
    ∀ (n : Nat) (m : Mem) (i len : Nat),
    wb * (natWords (8 * wb) n).length ≤ i → i ≤ len →
    writeWordsLoop (natWords (8 * wb) n) m i wb len =
      some (fun j => if i - wb * (natWords (8 * wb) n).length ≤ j ∧ j < i
          then n / 256 ^ (i - 1 - j) % 256 else m j,
        i - wb * (natWords (8 * wb) n).length) := by
  intro n
  induction n using Nat.strong_induction_on with
  | _ n ih =>
      intro m i len hcount hi
      by_cases hn : n = 0
      · subst hn
        rw [natWords_zero]
        have hf : (fun j => if i - wb * ([] : List Nat).length ≤ j ∧ j < i
              then 0 / 256 ^ (i - 1 - j) % 256 else m j) = m := by
          funext j
          simp only [List.length_nil, Nat.mul_zero, Nat.sub_zero]
          rw [if_neg (by omega)]
        rw [hf]
        simp [writeWordsLoop]
      · have hw8 : 1 ≤ 8 * wb := by omega
        have hcons := natWords_succ (8 * wb) n hw8 hn
        have hlen1 : 1 ≤ (natWords (8 * wb) n).length := by
          rw [hcons]; simp
        have hd : n / 2 ^ (8 * wb) < n :=
          Nat.div_lt_self (Nat.pos_of_ne_zero hn) (Nat.one_lt_two_pow (by omega))
        rw [hcons]
        rw [writeWordsLoop]
        have hwble : wb ≤ i := by
          have : wb * 1 ≤ wb * (natWords (8 * wb) n).length :=
            Nat.mul_le_mul_left wb hlen1
          omega
        rw [writeWordBytes_spec wb (n % 2 ^ (8 * wb)) m i len hwble hi]
        have hcount' : wb * (natWords (8 * wb) (n / 2 ^ (8 * wb))).length ≤ i - wb := by
          have hk0 : (natWords (8 * wb) n).length
              = (natWords (8 * wb) (n / 2 ^ (8 * wb))).length + 1 := by
            rw [hcons]; simp
          rw [hk0] at hcount
          have hmul0 : wb * ((natWords (8 * wb) (n / 2 ^ (8 * wb))).length + 1)
              = wb * (natWords (8 * wb) (n / 2 ^ (8 * wb))).length + wb := by ring
          omega
        show writeWordsLoop (natWords (8 * wb) (n / 2 ^ (8 * wb)))
            (fun j => if i - wb ≤ j ∧ j < i
              then n % 2 ^ (8 * wb) / 256 ^ (i - 1 - j) % 256 else m j)
            (i - wb) wb len = _
        rw [ih (n / 2 ^ (8 * wb)) hd _ (i - wb) len hcount' (by omega)]
        simp only [List.length_cons]
        have hmul : wb * ((natWords (8 * wb) (n / 2 ^ (8 * wb))).length + 1)
            = wb * (natWords (8 * wb) (n / 2 ^ (8 * wb))).length + wb := by ring
        have hidx : i - wb - wb * (natWords (8 * wb) (n / 2 ^ (8 * wb))).length
            = i - wb * ((natWords (8 * wb) (n / 2 ^ (8 * wb))).length + 1) := by omega
        have hfun : (fun j =>
              if i - wb - wb * (natWords (8 * wb) (n / 2 ^ (8 * wb))).length ≤ j ∧ j < i - wb
              then n / 2 ^ (8 * wb) / 256 ^ (i - wb - 1 - j) % 256
              else if i - wb ≤ j ∧ j < i then n % 2 ^ (8 * wb) / 256 ^ (i - 1 - j) % 256
              else m j)
            = fun j =>
              if i - wb * ((natWords (8 * wb) (n / 2 ^ (8 * wb))).length + 1) ≤ j ∧ j < i
              then n / 256 ^ (i - 1 - j) % 256 else m j := by
          funext j
          by_cases hj1 : i - wb - wb * (natWords (8 * wb) (n / 2 ^ (8 * wb))).length ≤ j
              ∧ j < i - wb
          · have hc2 : i - wb * ((natWords (8 * wb) (n / 2 ^ (8 * wb))).length + 1) ≤ j
                ∧ j < i := by omega
            rw [if_pos hj1, if_pos hc2]
            rw [pow256, Nat.div_div_eq_div_mul, ← Nat.pow_add]
            have hexp : wb + (i - wb - 1 - j) = i - 1 - j := by omega
            rw [hexp]
          · rw [if_neg hj1]
            by_cases hj2 : i - wb ≤ j ∧ j < i
            · have hc2 : i - wb * ((natWords (8 * wb) (n / 2 ^ (8 * wb))).length + 1) ≤ j
                  ∧ j < i := by omega
              rw [if_pos hj2, if_pos hc2]
              exact mod_word_byte n wb (i - 1 - j) (by omega)
            · have hc2 : ¬(i - wb * ((natWords (8 * wb) (n / 2 ^ (8 * wb))).length + 1) ≤ j
                  ∧ j < i) := by omega
              rw [if_neg hj2, if_neg hc2]
        rw [hfun, hidx]


theorem natWords_pow_bound (wb n : Nat) (hwb : 1 ≤ wb) :
    n < 256 ^ (wb * (natWords (8 * wb) n).length) := by
  have h := natWords_lt (8 * wb) (by omega) n
  have he : 8 * wb * (natWords (8 * wb) n).length
      = 8 * (wb * (natWords (8 * wb) n).length) := by ring
  rw [he, pow256] at h
  exact h

/-- The word-aligned byte span of a value below `256^p` is at most
`p + wb - 1` bytes. -/
theorem wordBytesBound (p wb n : Nat) (hwb : 1 ≤ wb) (hn : n < 256 ^ p) :
    wb * (natWords (8 * wb) n).length ≤ p + wb - 1 := by
  have hq1 : (p + wb - 1) / wb * wb ≤ p + wb - 1 := Nat.div_mul_le_self (p + wb - 1) wb
  have hcomm : wb * ((p + wb - 1) / wb) = (p + wb - 1) / wb * wb := Nat.mul_comm _ _
  have hdm := Nat.div_add_mod (p + wb - 1) wb
  have hmod : (p + wb - 1) % wb < wb := Nat.mod_lt _ (by omega)
  have hq2 : p ≤ wb * ((p + wb - 1) / wb) := by omega
  have hlt : n < 2 ^ (8 * wb * ((p + wb - 1) / wb)) := by
    have he : 8 * wb * ((p + wb - 1) / wb) = 8 * (wb * ((p + wb - 1) / wb)) := by ring
    rw [he, pow256]
    calc n < 256 ^ p := hn
      _ ≤ 256 ^ (wb * ((p + wb - 1) / wb)) := Nat.pow_le_pow_right (by norm_num) hq2
  have hle := natWords_length_le (8 * wb) (by omega) n ((p + wb - 1) / wb) hlt
  have := Nat.mul_le_mul_left wb hle
  omega

theorem div_256_pow_zero {n p e : Nat} (hn : n < 256 ^ p) (he : p ≤ e) :
    n / 256 ^ e = 0 :=
  Nat.div_eq_of_lt (lt_of_lt_of_le hn (Nat.pow_le_pow_right (by norm_num) he))

/-- Both packing loops of `ECDSASign` succeed (all indices in range), the
final `2*paramLen` tail bytes hold the zero-padded big-endian `r` then `s`,
and bytes well below the raw span are untouched. -/
theorem ecdsaStageRaw_spec (wb p len r s : Nat) (m : Mem)
    (hwb : 1 ≤ wb) (hp : 1 ≤ p) (hr : r < 256 ^ p) (hs : s < 256 ^ p)
    (hm : ∀ j, j < len → m j = 0) (hlen : 2 * p + wb ≤ len + 1) :
    ∃ m2, ecdsaStageRaw wb p r s m len = some m2 ∧
      (∀ j, len - 2 * p ≤ j → j < len →
        m2 j = if j < len - p then r / 256 ^ (len - p - 1 - j) % 256
          else s / 256 ^ (len - 1 - j) % 256) ∧
      (∀ j, j + 2 * p + wb ≤ len → m2 j = m j) := by
  have hksb := wordBytesBound p wb s hwb hs
  have hkrb := wordBytesBound p wb r hwb hr
  have hsz := natWords_pow_bound wb s hwb
  have hrz := natWords_pow_bound wb r hwb
  have hkslen : wb * (natWords (8 * wb) s).length ≤ len := by omega
  have h1 := writeWordsLoop_num wb hwb s m len len hkslen le_rfl
  have hkrlen : wb * (natWords (8 * wb) r).length ≤ len - p := by omega
  have h2 := writeWordsLoop_num wb hwb r
    (fun j => if len - wb * (natWords (8 * wb) s).length ≤ j ∧ j < len
      then s / 256 ^ (len - 1 - j) % 256 else m j)
    (len - p) len hkrlen (by omega)
  have hstage : ecdsaStageRaw wb p r s m len = some
      (fun j => if len - p - wb * (natWords (8 * wb) r).length ≤ j ∧ j < len - p
        then r / 256 ^ (len - p - 1 - j) % 256
        else if len - wb * (natWords (8 * wb) s).length ≤ j ∧ j < len
          then s / 256 ^ (len - 1 - j) % 256 else m j) := by
    unfold ecdsaStageRaw
    rw [h1]
    rw [Option.some_bind']
    rw [h2]
    rw [Option.map_some']
  refine ⟨_, hstage, ?_, ?_⟩
  · intro j hj1 hj2
    by_cases hcr : len - p - wb * (natWords (8 * wb) r).length ≤ j ∧ j < len - p
    · rw [if_pos hcr, if_pos hcr.2]
    · rw [if_neg hcr]
      by_cases hcs : len - wb * (natWords (8 * wb) s).length ≤ j ∧ j < len
      · rw [if_pos hcs]
        by_cases hjp : j < len - p
        · rw [if_pos hjp]
          have e1 : s / 256 ^ (len - 1 - j) = 0 := div_256_pow_zero hs (by omega)
          have e2 : r / 256 ^ (len - p - 1 - j) = 0 := div_256_pow_zero hrz (by omega)
          rw [e1, e2]
        · rw [if_neg hjp]
      · rw [if_neg hcs]
        have hm0 : m j = 0 := hm j hj2
        by_cases hjp : j < len - p
        · rw [if_pos hjp, hm0]
          have e2 : r / 256 ^ (len - p - 1 - j) = 0 := div_256_pow_zero hrz (by omega)
          rw [e2]
        · rw [if_neg hjp, hm0]
          have e1 : s / 256 ^ (len - 1 - j) = 0 := div_256_pow_zero hsz (by omega)
          rw [e1]
  · intro j hjf
    have hc1 : ¬(len - p - wb * (natWords (8 * wb) r).length ≤ j ∧ j < len - p) := by omega
    have hc2 : ¬(len - wb * (natWords (8 * wb) s).length ≤ j ∧ j < len) := by omega
    rw [if_neg hc1, if_neg hc2]


/-! ## In-place base64url encoding over one shared buffer

Models the aliased `encoding.Encode` calls: `HMACSign` line 116
(`encoding.Encode(token[len(token):cap(token)], digest.Sum(...))` with the
raw MAC staged at the extreme tail) and `ECDSASign` line 69
(`encoding.Encode(sig, sig[len(sig)-2*paramLen:])`). The read cursor `r`
and write cursor `w` walk the same buffer; each group is read before its
output bytes are written, exactly as the codec does. -/

def encodeInPlace : Nat → Mem → Nat → Nat → Mem
  | 0, m, _, _ => m
  | 1, m, w, r =>
      let b0 := m r
      wr (wr m w (b64char (b0 / 4))) (w + 1) (b64char (b0 % 4 * 16))
  | 2, m, w, r =>
      let b0 := m r
      let b1 := m (r + 1)
      wr (wr (wr m w (b64char (b0 / 4))) (w + 1) (b64char (b0 % 4 * 16 + b1 / 16)))
        (w + 2) (b64char (b1 % 16 * 4))
  | rem + 3, m, w, r =>
      let b0 := m r
      let b1 := m (r + 1)
      let b2 := m (r + 2)
      encodeInPlace rem
        (wr (wr (wr (wr m w (b64char (b0 / 4))) (w + 1) (b64char (b0 % 4 * 16 + b1 / 16)))
          (w + 2) (b64char (b1 % 16 * 4 + b2 / 64))) (w + 3) (b64char (b2 % 64)))
        (w + 4) (r + 3)

/-- Correctness of the aliased in-place encode: whenever the write region
ends exactly where the source region ends (`w + EncodedLen rem = r + rem`,
the "raw bytes staged at the highest offsets" layout), the write cursor
never overtakes the read cursor, so the destination region receives
exactly the encoding of the original source bytes and everything outside
the destination region is untouched. -/
theorem encodeInPlace_spec : ∀ (rem : Nat) (m : Mem) (w r : Nat),
    w + EncodedLen rem = r + rem →
    ∀ j, encodeInPlace rem m w r j =
      if w ≤ j ∧ j < w + EncodedLen rem
      then (Encode (readList m r rem)).getD (j - w) 0 else m j := by
  intro rem
  induction rem using Nat.strong_induction_on with
  | _ rem ih =>
      match rem with
      | 0 =>
          intro m w r hinv j
          have hE : EncodedLen 0 = 0 := rfl
          rw [show encodeInPlace 0 m w r = m from rfl, hE]
          have hc : ¬(w ≤ j ∧ j < w + 0) := by omega
          rw [if_neg hc]
      | 1 =>
          intro m w r hinv j
          have hE : EncodedLen 1 = 2 := rfl
          rw [hE] at hinv
          have hr : r = w + 1 := by omega
          subst hr
          rw [show encodeInPlace 1 m w (w + 1) = wr (wr m w (b64char (m (w + 1) / 4)))
              (w + 1) (b64char (m (w + 1) % 4 * 16)) from rfl, hE]
          have hrd : readList m (w + 1) 1 = [m (w + 1)] := by
            rw [readList_succ, readList_zero]
          rw [hrd]
          have hEnc : Encode [m (w + 1)]
              = [b64char (m (w + 1) / 4), b64char (m (w + 1) % 4 * 16)] := by
            simp [Encode]
          rw [hEnc]
          by_cases hj0 : j = w
          · subst hj0
            simp only [wr]
            have e1 : ¬(j = j + 1) := by omega
            rw [if_neg e1, if_true, if_pos (by omega : j ≤ j ∧ j < j + 2)]
            rw [Nat.sub_self, List.getD_cons_zero]
          · by_cases hj1 : j = w + 1
            · subst hj1
              simp only [wr]
              rw [if_true, if_pos (by omega : w ≤ w + 1 ∧ w + 1 < w + 2)]
              have hd : w + 1 - w = 1 := by omega
              rw [hd]
              simp only [List.getD_cons_succ, List.getD_cons_zero]
            · simp only [wr]
              rw [if_neg hj1, if_neg hj0, if_neg (by omega : ¬(w ≤ j ∧ j < w + 2))]
      | 2 =>
          intro m w r hinv j
          have hE : EncodedLen 2 = 3 := rfl
          rw [hE] at hinv
          have hr : r = w + 1 := by omega
          subst hr
          rw [show encodeInPlace 2 m w (w + 1)
              = wr (wr (wr m w (b64char (m (w + 1) / 4))) (w + 1)
                (b64char (m (w + 1) % 4 * 16 + m (w + 1 + 1) / 16)))
                (w + 2) (b64char (m (w + 1 + 1) % 16 * 4)) from rfl, hE]
          have hrd : readList m (w + 1) 2 = [m (w + 1), m (w + 1 + 1)] := by
            rw [readList_succ, readList_succ, readList_zero]
          rw [hrd]
          have hEnc : Encode [m (w + 1), m (w + 1 + 1)]
              = [b64char (m (w + 1) / 4), b64char (m (w + 1) % 4 * 16 + m (w + 1 + 1) / 16),
                 b64char (m (w + 1 + 1) % 16 * 4)] := by
            simp [Encode]
          rw [hEnc]
          by_cases hj0 : j = w
          · subst hj0
            simp only [wr]
            have e2 : ¬(j = j + 2) := by omega
            have e1 : ¬(j = j + 1) := by omega
            rw [if_neg e2, if_neg e1, if_true, if_pos (by omega : j ≤ j ∧ j < j + 3)]
            rw [Nat.sub_self, List.getD_cons_zero]
          · by_cases hj1 : j = w + 1
            · subst hj1
              simp only [wr]
              have e2 : ¬(w + 1 = w + 2) := by omega
              rw [if_neg e2, if_true, if_pos (by omega : w ≤ w + 1 ∧ w + 1 < w + 3)]
              have hd : w + 1 - w = 1 := by omega
              rw [hd]
              simp only [List.getD_cons_succ, List.getD_cons_zero]
            · by_cases hj2 : j = w + 2
              · subst hj2
                simp only [wr]
                rw [if_true, if_pos (by omega : w ≤ w + 2 ∧ w + 2 < w + 3)]
                have hd : w + 2 - w = 2 := by omega
                rw [hd]
                simp only [List.getD_cons_succ, List.getD_cons_zero]
              · simp only [wr]
                rw [if_neg hj2, if_neg hj1, if_neg hj0,
                  if_neg (by omega : ¬(w ≤ j ∧ j < w + 3))]
      | rem + 3 =>
          intro m w r hinv j
          have hE3 : EncodedLen (rem + 3) = EncodedLen rem + 4 := EncodedLen_add_three rem
          have hge := EncodedLen_ge rem
          have hw4 : w + 4 ≤ r + 3 := by omega
          rw [show encodeInPlace (rem + 3) m w r = encodeInPlace rem
              (wr (wr (wr (wr m w (b64char (m r / 4))) (w + 1)
                (b64char (m r % 4 * 16 + m (r + 1) / 16))) (w + 2)
                (b64char (m (r + 1) % 16 * 4 + m (r + 2) / 64))) (w + 3)
                (b64char (m (r + 2) % 64)))
              (w + 4) (r + 3) from rfl]
          rw [ih rem (by omega) _ (w + 4) (r + 3) (by omega) j]
          have hrl : readList
              (wr (wr (wr (wr m w (b64char (m r / 4))) (w + 1)
                (b64char (m r % 4 * 16 + m (r + 1) / 16))) (w + 2)
                (b64char (m (r + 1) % 16 * 4 + m (r + 2) / 64))) (w + 3)
                (b64char (m (r + 2) % 64)))
              (r + 3) rem = readList m (r + 3) rem := by
            apply readList_congr
            intro jj hjj1 hjj2
            have e3 : ¬(jj = w + 3) := by omega
            have e2 : ¬(jj = w + 2) := by omega
            have e1 : ¬(jj = w + 1) := by omega
            have e0 : ¬(jj = w) := by omega
            simp only [wr]
            rw [if_neg e3, if_neg e2, if_neg e1, if_neg e0]
          rw [hrl]
          have hrd : readList m r (rem + 3)
              = m r :: m (r + 1) :: m (r + 1 + 1) :: readList m (r + 1 + 1 + 1) rem := by
            rw [readList_succ, readList_succ, readList_succ]
          have h12 : r + 1 + 1 = r + 2 := rfl
          have h13 : r + 1 + 1 + 1 = r + 3 := rfl
          rw [h12, h13] at hrd
          rw [hrd]
          have hEnc : Encode (m r :: m (r + 1) :: m (r + 2) :: readList m (r + 3) rem)
              = b64char (m r / 4) :: b64char (m r % 4 * 16 + m (r + 1) / 16) ::
                b64char (m (r + 1) % 16 * 4 + m (r + 2) / 64) :: b64char (m (r + 2) % 64) ::
                Encode (readList m (r + 3) rem) := by
            rw [Encode]
          rw [hEnc]
          by_cases hj : w ≤ j ∧ j < w + EncodedLen (rem + 3)
          · rw [if_pos hj]
            by_cases hj4 : j < w + 4
            · have hcl : ¬(w + 4 ≤ j ∧ j < w + 4 + EncodedLen rem) := by omega
              rw [if_neg hcl]
              have hj' : j = w ∨ j = w + 1 ∨ j = w + 2 ∨ j = w + 3 := by omega
              rcases hj' with rfl | rfl | rfl | rfl
              · simp only [wr]
                have e3 : ¬(j = j + 3) := by omega
                have e2 : ¬(j = j + 2) := by omega
                have e1 : ¬(j = j + 1) := by omega
                rw [if_neg e3, if_neg e2, if_neg e1, if_true, Nat.sub_self,
                  List.getD_cons_zero]
              · simp only [wr]
                have e3 : ¬(w + 1 = w + 3) := by omega
                have e2 : ¬(w + 1 = w + 2) := by omega
                have hd : w + 1 - w = 1 := by omega
                rw [if_neg e3, if_neg e2, if_true, hd]
                simp only [List.getD_cons_succ, List.getD_cons_zero]
              · simp only [wr]
                have e3 : ¬(w + 2 = w + 3) := by omega
                have hd : w + 2 - w = 2 := by omega
                rw [if_neg e3, if_true, hd]
                simp only [List.getD_cons_succ, List.getD_cons_zero]
              · simp only [wr]
                have hd : w + 3 - w = 3 := by omega
                rw [if_true, hd]
                simp only [List.getD_cons_succ, List.getD_cons_zero]
            · have hcl : w + 4 ≤ j ∧ j < w + 4 + EncodedLen rem := by omega
              rw [if_pos hcl]
              have hd4 : j - w = j - w - 4 + 1 + 1 + 1 + 1 := by omega
              rw [hd4]
              simp only [List.getD_cons_succ]
              have hsh : j - (w + 4) = j - w - 4 := by omega
              rw [hsh]
          · rw [if_neg hj]
            have hcl : ¬(w + 4 ≤ j ∧ j < w + 4 + EncodedLen rem) := by omega
            rw [if_neg hcl]
            have e3 : ¬(j = w + 3) := by omega
            have e2 : ¬(j = w + 2) := by omega
            have e1 : ¬(j = w + 1) := by omega
            have e0 : ¬(j = w) := by omega
            simp only [wr]
            rw [if_neg e3, if_neg e2, if_neg e1, if_neg e0]


/-- Whole-region corollary of the in-place encode: with the raw bytes at
the region's high end, the pass leaves exactly the pure encoding of the
original raw bytes in the region. -/
theorem encodeInPlace_region (m : Mem) (n d : Nat) :
    readList (encodeInPlace n m d (d + (EncodedLen n - n))) d (EncodedLen n)
      = Encode (readList m (d + (EncodedLen n - n)) n) := by
  have hge := EncodedLen_ge n
  apply list_ext_getD
  · rw [length_readList, length_Encode, length_readList]
  · intro j hj1
    rw [length_readList] at hj1
    rw [getD_readList _ _ _ j hj1]
    rw [encodeInPlace_spec n m d (d + (EncodedLen n - n)) (by omega) (d + j)]
    have hcond : d ≤ d + j ∧ d + j < d + EncodedLen n := by omega
    rw [if_pos hcond]
    have hdj : d + j - d = j := by omega
    rw [hdj]

/-- The tail region of `HMACSign` just before the in-place encode: the
raw MAC at the highest offsets of the reserved capacity (written there by
`digest.Sum(token[bufOffset:bufOffset])`, `bufOffset = cap - size`), zero
bytes (fresh allocation) below it. Offsets are relative to the start of
the reserved region, which begins right after the `.` delimiter. -/
def tailWithRaw (raw : List Nat) : Mem :=
  fun j => if j < EncodedLen raw.length - raw.length then 0
    else raw.getD (j - (EncodedLen raw.length - raw.length)) 0

/-- The reserved region after the aliased in-place encode of `HMACSign`. -/
def encodeTail (raw : List Nat) : List Nat :=
  readList
    (encodeInPlace raw.length (tailWithRaw raw) 0 (EncodedLen raw.length - raw.length))
    0 (EncodedLen raw.length)

theorem readList_tailWithRaw (raw : List Nat) :
    readList (tailWithRaw raw) (EncodedLen raw.length - raw.length) raw.length = raw := by
  apply list_ext_getD
  · rw [length_readList]
  · intro j hj1
    rw [length_readList] at hj1
    rw [getD_readList _ _ _ j hj1]
    unfold tailWithRaw
    have hc : ¬(EncodedLen raw.length - raw.length + j
        < EncodedLen raw.length - raw.length) := by omega
    rw [if_neg hc]
    have hdj : EncodedLen raw.length - raw.length + j
        - (EncodedLen raw.length - raw.length) = j := by omega
    rw [hdj]

/-- The in-place encode of the tail produces exactly the encoding of the
raw MAC: no staged byte is overwritten before it is read. -/
theorem encodeTail_eq (raw : List Nat) : encodeTail raw = Encode raw := by
  unfold encodeTail
  have h0 : EncodedLen raw.length - raw.length
      = 0 + (EncodedLen raw.length - raw.length) := by omega
  rw [h0, encodeInPlace_region (tailWithRaw raw) raw.length 0]
  rw [Nat.zero_add, readList_tailWithRaw]

/-- The reserved region of `ECDSASign` after staging `(r, s)` and the
aliased in-place encode `encoding.Encode(sig, sig[len(sig)-2*paramLen:])`
(sign.go line 69); `none` models an out-of-range panic while staging. -/
def ecdsaTail (wb p r s : Nat) : Option (List Nat) :=
  (ecdsaStageRaw wb p r s (fun _ => 0) (EncodedLen (2 * p))).map
    (fun m2 => readList (encodeInPlace (2 * p) m2 0 (EncodedLen (2 * p) - 2 * p))
      0 (EncodedLen (2 * p)))

/-- For the supported curves and word sizes the staging succeeds and the
encoded signature segment is exactly the encoding of
`bePad paramLen r ++ bePad paramLen s`. -/
theorem ecdsaTail_eq (wb p r s : Nat) (hwb : wb = 4 ∨ wb = 8)
    (hp : p = 32 ∨ p = 48 ∨ p = 66) (hr : r < 256 ^ p) (hs : s < 256 ^ p) :
    ecdsaTail wb p r s = some (Encode (bePad p r ++ bePad p s)) := by
  have hwb1 : 1 ≤ wb := by rcases hwb with rfl | rfl <;> omega
  have hp1 : 1 ≤ p := by rcases hp with rfl | rfl | rfl <;> omega
  have hLp : 2 * p ≤ EncodedLen (2 * p) := EncodedLen_ge _
  have hlen : 2 * p + wb ≤ EncodedLen (2 * p) + 1 := by
    rcases hp with rfl | rfl | rfl <;> rcases hwb with rfl | rfl <;> decide
  obtain ⟨m2, hstage, hspan, hframe⟩ :=
    ecdsaStageRaw_spec wb p (EncodedLen (2 * p)) r s (fun _ => 0)
      hwb1 hp1 hr hs (fun j _ => rfl) hlen
  unfold ecdsaTail
  rw [hstage, Option.map_some']
  congr 1
  have h0 : EncodedLen (2 * p) - 2 * p = 0 + (EncodedLen (2 * p) - 2 * p) := by omega
  rw [h0, encodeInPlace_region m2 (2 * p) 0]
  congr 1
  rw [Nat.zero_add]
  apply list_ext_getD
  · rw [length_readList, List.length_append, length_bePad, length_bePad]
    omega
  · intro j hj1
    rw [length_readList] at hj1
    rw [getD_readList _ _ _ j hj1]
    rw [hspan (EncodedLen (2 * p) - 2 * p + j) (by omega) (by omega)]
    by_cases hjp : j < p
    · have hcond : EncodedLen (2 * p) - 2 * p + j < EncodedLen (2 * p) - p := by omega
      rw [if_pos hcond]
      have hexp : EncodedLen (2 * p) - p - 1 - (EncodedLen (2 * p) - 2 * p + j)
          = p - 1 - j := by omega
      rw [hexp]
      rw [List.getD_append _ _ 0 j (by rw [length_bePad]; omega)]
      rw [getD_bePad p r j hjp]
    · have hcond : ¬(EncodedLen (2 * p) - 2 * p + j < EncodedLen (2 * p) - p) := by omega
      rw [if_neg hcond]
      have hexp : EncodedLen (2 * p) - 1 - (EncodedLen (2 * p) - 2 * p + j)
          = 2 * p - 1 - j := by omega
      rw [hexp]
      rw [List.getD_append_right _ _ 0 j (by rw [length_bePad]; omega)]
      simp only [length_bePad]
      rw [getD_bePad p s (j - p) (by omega)]
      have hx : p - 1 - (j - p) = 2 * p - 1 - j := by omega
      rw [hx]


/-! ## The signing functions (sign.go)

The external collaborators appear as parameters: `syncRes` is the result
of `c.sync(alg)` (claims serializer, may fail), `lookupRes` that of
`hashLookup(alg, ...Algs)` (algorithm catalog, fails with an `AlgError`
for an identifier outside the family), and the raw signatures/MACs are
the outputs of the cryptographic primitives. Each function returns the
Go pair `(token []byte, err error)`, with `none` for a nil slice; the
engines that can panic return an outer `Option` whose `none` is a
run-time panic. -/

/-- Error kinds (spec section 7). -/
inductive JErr where
  | algErr (alg : String)
  | noSecret
  | serializeErr
  | primitiveErr
  deriving DecidableEq

/-- A Go `(token []byte, err error)` return; `none` models a nil slice /
nil error. -/
abbrev SignRet := Option (List Nat) × Option JErr

/-- `FormatWithoutSign` (sign.go lines 13-20): the unsigned prefix via
`newToken` with `encSigLen = 0`. -/
def FormatWithoutSign (alg kid : String) (raw : List Nat)
    (syncRes : Except JErr (Option (List Nat))) : SignRet :=
  match syncRes with
  | .error e => (none, some e)
  | .ok headerJSON => (some (newToken alg kid raw 0 headerJSON).1, none)

/-- `HMACSign` (sign.go lines 94-118). `mac` is the raw MAC the digest
produces over the unsigned prefix (`digest.Size()` bytes, staged at the
buffer's extreme tail and encoded in place). -/
def HMACSign (alg kid : String) (raw secret : List Nat)
    (syncRes : Except JErr (Option (List Nat))) (lookupRes : Except JErr Unit)
    (mac : List Nat) : SignRet :=
  if secret.length = 0 then (none, some JErr.noSecret)
  else
    match syncRes with
    | .error e => (none, some e)
    | .ok headerJSON =>
      match lookupRes with
      | .error e => (none, some e)
      | .ok _ =>
        (some ((newToken alg kid raw (EncodedLen mac.length) headerJSON).1
          ++ [46] ++ encodeTail mac), none)

/-- The padding schemes of `RSASign`. -/
inductive RSAScheme where
  | PSS
  | PKCS1v15
  deriving DecidableEq

/-- The padding-scheme dispatch of `RSASign` (sign.go line 141):
`alg != "" && alg[0] == 'P'` selects PSS, anything else PKCS#1 v1.5. -/
def rsaScheme (alg : String) : RSAScheme :=
  if alg ≠ "" ∧ (strBytes alg).getD 0 0 = 80 then RSAScheme.PSS else RSAScheme.PKCS1v15

/-- `RSASign` (sign.go lines 122-156). `keySize` models `key.Size()` (the
modulus byte size), `sigOf` the raw signature produced by the selected
padding scheme (fresh memory, so the final encode has disjoint source and
destination). The outer `none` models the panic when the signature would
not fit the reserved region; a shorter signature leaves the zero bytes of
the fresh allocation behind. -/
def RSASign (alg kid : String) (raw : List Nat) (keySize : Nat)
    (syncRes : Except JErr (Option (List Nat))) (lookupRes : Except JErr Unit)
    (sigOf : RSAScheme → Except JErr (List Nat)) : Option SignRet :=
  match syncRes with
  | .error e => some (none, some e)
  | .ok headerJSON =>
    match lookupRes with
    | .error e => some (none, some e)
    | .ok _ =>
      match sigOf (rsaScheme alg) with
      | .error e => some (none, some e)
      | .ok sig =>
        if EncodedLen keySize < EncodedLen sig.length then none
        else some (some ((newToken alg kid raw (EncodedLen keySize) headerJSON).1
          ++ [46] ++ Encode sig
          ++ List.replicate (EncodedLen keySize - EncodedLen sig.length) 0), none)

/-- `EdDSASign` (sign.go lines 74-90). `sig` is the raw Ed25519 signature
(`ed25519.SignatureSize = 64` bytes for a well-formed key). -/
def EdDSASign (kid : String) (raw : List Nat)
    (syncRes : Except JErr (Option (List Nat))) (sig : List Nat) : Option SignRet :=
  match syncRes with
  | .error e => some (none, some e)
  | .ok headerJSON =>
    if EncodedLen 64 < EncodedLen sig.length then none
    else some (some ((newToken EdDSA kid raw (EncodedLen 64) headerJSON).1
      ++ [46] ++ Encode sig
      ++ List.replicate (EncodedLen 64 - EncodedLen sig.length) 0), none)

/-- `ECDSASign` (sign.go lines 26-71). `signRes` is the `(r, s)` pair of
`ecdsa.Sign` (or its failure), `paramLen = (BitSize + 7) / 8` the curve
byte width, `wb` the machine word size in bytes. The outer `none` models
an index-out-of-range panic in the packing loops. -/
def ECDSASign (alg kid : String) (raw : List Nat) (wb paramLen : Nat)
    (syncRes : Except JErr (Option (List Nat))) (lookupRes : Except JErr Unit)
    (signRes : Except JErr (Nat × Nat)) : Option SignRet :=
  match syncRes with
  | .error e => some (none, some e)
  | .ok headerJSON =>
    match lookupRes with
    | .error e => some (none, some e)
    | .ok _ =>
      match signRes with
      | .error e => some (none, some e)
      | .ok (r, s) =>
        (ecdsaTail wb paramLen r s).map (fun tail =>
          (some ((newToken alg kid raw (EncodedLen (2 * paramLen)) headerJSON).1
            ++ [46] ++ tail), none))

/-- The HMAC algorithm family (spec section 4.1). -/
def HMACAlgs : List String := [HS256, HS384, HS512]

/-- The RSA algorithm family (spec section 4.1). -/
def RSAAlgs : List String := [RS256, RS384, RS512, PS256, PS384, PS512]

/-- The ECDSA algorithm family (spec section 4.1). -/
def ECDSAAlgs : List String := [ES256, ES384, ES512]


/-! ## Claim theorems -/

/-- Shared helper: under the real call-site conditions the staging
succeeds and the raw span is the zero-padded big-endian `r ‖ s`. -/
theorem stage_span (wb p r s : Nat) (m : Mem)
    (hwb1 : 1 ≤ wb) (hp1 : 1 ≤ p) (hr : r < 256 ^ p) (hs : s < 256 ^ p)
    (hm : ∀ j, j < EncodedLen (2 * p) → m j = 0)
    (hlen : 2 * p + wb ≤ EncodedLen (2 * p) + 1) :
    ∃ m2, ecdsaStageRaw wb p r s m (EncodedLen (2 * p)) = some m2 ∧
      readList m2 (EncodedLen (2 * p) - 2 * p) (2 * p) = bePad p r ++ bePad p s ∧
      (∀ j, j + 2 * p + wb ≤ EncodedLen (2 * p) → m2 j = m j) := by
  have hLp : 2 * p ≤ EncodedLen (2 * p) := EncodedLen_ge _
  obtain ⟨m2, hstage, hspan, hframe⟩ :=
    ecdsaStageRaw_spec wb p (EncodedLen (2 * p)) r s m hwb1 hp1 hr hs hm hlen
  refine ⟨m2, hstage, ?_, hframe⟩
  apply list_ext_getD
  · rw [length_readList, List.length_append, length_bePad, length_bePad]
    omega
  · intro j hj1
    rw [length_readList] at hj1
    rw [getD_readList _ _ _ j hj1]
    rw [hspan (EncodedLen (2 * p) - 2 * p + j) (by omega) (by omega)]
    by_cases hjp : j < p
    · have hcond : EncodedLen (2 * p) - 2 * p + j < EncodedLen (2 * p) - p := by omega
      rw [if_pos hcond]
      have hexp : EncodedLen (2 * p) - p - 1 - (EncodedLen (2 * p) - 2 * p + j)
          = p - 1 - j := by omega
      rw [hexp]
      rw [List.getD_append _ _ 0 j (by rw [length_bePad]; omega)]
      rw [getD_bePad p r j hjp]
    · have hcond : ¬(EncodedLen (2 * p) - 2 * p + j < EncodedLen (2 * p) - p) := by omega
      rw [if_neg hcond]
      have hexp : EncodedLen (2 * p) - 1 - (EncodedLen (2 * p) - 2 * p + j)
          = 2 * p - 1 - j := by omega
      rw [hexp]
      rw [List.getD_append_right _ _ 0 j (by rw [length_bePad]; omega)]
      simp only [length_bePad]
      rw [getD_bePad p s (j - p) (by omega)]
      have hx : p - 1 - (j - p) = 2 * p - 1 - j := by omega
      rw [hx]

theorem supported_size_bound (wb p : Nat) (hwb : wb = 4 ∨ wb = 8)
    (hp : p = 32 ∨ p = 48 ∨ p = 66) : 2 * p + wb ≤ EncodedLen (2 * p) + 1 := by
  rcases hp with rfl | rfl | rfl <;> rcases hwb with rfl | rfl <;> decide

/-- C1: for every ECDSA signing call with a supported curve width
(`paramLen` 32, 48 or 66), either machine word size (4- or 8-byte words),
and signature values `r, s < 2^(8*paramLen)`, the raw bytes staged in the
final `2*paramLen` positions of the (freshly zeroed) tail region by the
word-chunked extraction loops are exactly the `paramLen`-byte left-zero-
padded big-endian encoding of `r` immediately followed by that of `s` —
the word-chunked loops agree with the byte-oriented definition `bePad`. -/
theorem C1_staged_raw_signature (wb p r s len : Nat) (m : Mem)
    (hwb : wb = 4 ∨ wb = 8) (hp : p = 32 ∨ p = 48 ∨ p = 66)
    (hr : r < 2 ^ (8 * p)) (hs : s < 2 ^ (8 * p))
    (hm : ∀ j, j < len → m j = 0) (hlen : len = EncodedLen (2 * p)) :
    stagedBytes wb p r s m len = some (bePad p r ++ bePad p s) := by
  subst hlen
  rw [pow256] at hr hs
  have hwb1 : 1 ≤ wb := by rcases hwb with rfl | rfl <;> omega
  have hp1 : 1 ≤ p := by rcases hp with rfl | rfl | rfl <;> omega
  obtain ⟨m2, hstage, hspan, _⟩ :=
    stage_span wb p r s m hwb1 hp1 hr hs hm (supported_size_bound wb p hwb hp)
  unfold stagedBytes
  rw [hstage, Option.map_some', hspan]

/-- C1 witness. -/
theorem C1_staged_raw_signature_witness :
    ((8 : Nat) = 4 ∨ (8 : Nat) = 8) ∧ ((32 : Nat) = 32 ∨ (32 : Nat) = 48 ∨ (32 : Nat) = 66) ∧
    (3 : Nat) < 2 ^ (8 * 32) ∧ (5 : Nat) < 2 ^ (8 * 32) ∧
    stagedBytes 8 32 3 5 (fun _ => 0) (EncodedLen 64) = some (bePad 32 3 ++ bePad 32 5) :=
  ⟨Or.inr rfl, Or.inl rfl, by decide, by decide,
    C1_staged_raw_signature 8 32 3 5 (EncodedLen 64) (fun _ => 0)
      (Or.inr rfl) (Or.inl rfl) (by decide) (by decide) (fun _ _ => rfl) rfl⟩

/-- C10: for every supported curve width and machine word size, the
word-chunked packing loops of `ECDSASign` never index outside `[0, len)`
(the staging returns a value instead of the `none` that models a panic),
and the word-size overshoot only touches scratch bytes strictly below the
final `2*paramLen`-byte raw span — everything further down is untouched. -/
theorem C10_staging_in_bounds (wb p r s : Nat) (m : Mem)
    (hwb : wb = 4 ∨ wb = 8) (hp : p = 32 ∨ p = 48 ∨ p = 66)
    (hr : r < 2 ^ (8 * p)) (hs : s < 2 ^ (8 * p))
    (hm : ∀ j, j < EncodedLen (2 * p) → m j = 0) :
    ∃ m2, ecdsaStageRaw wb p r s m (EncodedLen (2 * p)) = some m2 ∧
      (∀ j, j + 2 * p + wb ≤ EncodedLen (2 * p) → m2 j = m j) := by
  rw [pow256] at hr hs
  have hwb1 : 1 ≤ wb := by rcases hwb with rfl | rfl <;> omega
  have hp1 : 1 ≤ p := by rcases hp with rfl | rfl | rfl <;> omega
  obtain ⟨m2, hstage, _, hframe⟩ :=
    stage_span wb p r s m hwb1 hp1 hr hs hm (supported_size_bound wb p hwb hp)
  exact ⟨m2, hstage, hframe⟩

/-- C10 witness. -/
theorem C10_staging_in_bounds_witness :
    ((4 : Nat) = 4 ∨ (4 : Nat) = 8) ∧ ((48 : Nat) = 32 ∨ (48 : Nat) = 48 ∨ (48 : Nat) = 66) ∧
    (1 : Nat) < 2 ^ (8 * 48) ∧ (2 : Nat) < 2 ^ (8 * 48) ∧
    ∃ m2, ecdsaStageRaw 4 48 1 2 (fun _ => 0) (EncodedLen (2 * 48)) = some m2 ∧
      (∀ j, j + 2 * 48 + 4 ≤ EncodedLen (2 * 48) → m2 j = (fun _ => (0 : Nat)) j) :=
  ⟨Or.inl rfl, Or.inr (Or.inl rfl), by decide, by decide,
    C10_staging_in_bounds 4 48 1 2 (fun _ => 0)
      (Or.inl rfl) (Or.inr (Or.inl rfl)) (by decide) (by decide) (fun _ _ => rfl)⟩

/-- C4: for every in-place base64url encoding where the raw bytes are
staged at the highest offsets of the reserved region (source region ends
where the destination region ends) and the encoder writes starting at the
region's base `d` (immediately after the `.` delimiter), the write cursor
never overtakes unread input: the destination receives exactly the
encoding of the original raw bytes, and bytes outside the destination
region are untouched. -/
theorem C4_in_place_encode_safe (m : Mem) (d n : Nat) :
    (∀ j, j < EncodedLen n →
      encodeInPlace n m d (d + (EncodedLen n - n)) (d + j)
        = (Encode (readList m (d + (EncodedLen n - n)) n)).getD j 0) ∧
    (∀ j, j < d ∨ d + EncodedLen n ≤ j →
      encodeInPlace n m d (d + (EncodedLen n - n)) j = m j) := by
  have hge := EncodedLen_ge n
  constructor
  · intro j hj
    rw [encodeInPlace_spec n m d (d + (EncodedLen n - n)) (by omega) (d + j)]
    have hcond : d ≤ d + j ∧ d + j < d + EncodedLen n := by omega
    rw [if_pos hcond]
    have hdj : d + j - d = j := by omega
    rw [hdj]
  · intro j hj
    rw [encodeInPlace_spec n m d (d + (EncodedLen n - n)) (by omega) j]
    have hcond : ¬(d ≤ j ∧ j < d + EncodedLen n) := by omega
    rw [if_neg hcond]

/-- C4 witness. -/
theorem C4_in_place_encode_safe_witness :
    (0 : Nat) < EncodedLen 3 ∧
    encodeInPlace 3 (fun v => v + 1) 2 (2 + (EncodedLen 3 - 3)) (2 + 0)
      = (Encode (readList (fun v => v + 1) (2 + (EncodedLen 3 - 3)) 3)).getD 0 0 :=
  ⟨by decide, (C4_in_place_encode_safe (fun v => v + 1) 2 3).1 0 (by decide)⟩


/-- C2: for each of the thirteen algorithm identifiers in the fixed
table, the precomputed constant used by the fast path is byte-identical
to what the slow path would produce for an empty key id: the base64url
encoding of exactly `´{"alg":"<ALG>"}´` (followed by the `.` separator
the constant also carries). -/
theorem C2_fixed_header_table (alg : String) (h : alg ∈ fixedAlgs) :
    fixedFor alg = some (Encode (headerJSONFor "" alg) ++ [46]) := by
  simp only [fixedAlgs, List.mem_cons, List.not_mem_nil, or_false] at h
  rcases h with rfl | rfl | rfl | rfl | rfl | rfl | rfl | rfl | rfl | rfl | rfl | rfl | rfl
  all_goals decide

/-- C2 witness. -/
theorem C2_fixed_header_table_witness :
    ES256 ∈ fixedAlgs ∧ fixedFor ES256 = some (Encode (headerJSONFor "" ES256) ++ [46]) :=
  ⟨by decide, C2_fixed_header_table ES256 (by decide)⟩

/-- C3: for every algorithm, key id, payload and reserved signature
length, `newToken` returns content `encodedHeader ++ "." ++
encodedPayload` whose length is `len(encodedHeader) + 1 +
encodedLen(len(payload))`, with capacity exactly `length + 1 + encSigLen`
— so the later append of `.` and the in-place signature encoding fit the
single initial allocation exactly and no reallocation can occur. -/
theorem C3_newToken_buffer_plan (alg kid : String) (raw : List Nat) (encSigLen : Nat)
    (headerJSON : Option (List Nat)) :
    (newToken alg kid raw encSigLen headerJSON).1
      = Encode (effHeader alg kid headerJSON) ++ [46] ++ Encode raw ∧
    (newToken alg kid raw encSigLen headerJSON).1.length
      = (Encode (effHeader alg kid headerJSON)).length + 1 + EncodedLen raw.length ∧
    (newToken alg kid raw encSigLen headerJSON).2
      = (newToken alg kid raw encSigLen headerJSON).1.length + 1 + encSigLen := by
  obtain ⟨hc, hcap⟩ := newToken_spec alg kid raw encSigLen headerJSON
  refine ⟨hc, ?_, hcap⟩
  rw [hc]
  simp [length_Encode]
  omega

/-- C5: with a non-empty key id (and no caller-supplied header) the
header segment `newToken` encodes is exactly
`´{"kid":<quoted-kid>,"alg":<quoted-alg>}´` — key-id field first, both
values JSON-string-escaped; in particular for key id `"k1"` and algorithm
`HS256` the header JSON is exactly `´{"kid":"k1","alg":"HS256"}´`. -/
theorem C5_slow_path_header (alg kid : String) (raw : List Nat) (encSigLen : Nat)
    (hkid : kid ≠ "") :
    (newToken alg kid raw encSigLen none).1
      = Encode (strBytes "\x7b\"kid\":" ++ AppendQuote kid ++ strBytes ",\"alg\":"
          ++ AppendQuote alg ++ [125]) ++ [46] ++ Encode raw ∧
    headerJSONFor "k1" "HS256" = strBytes "\x7b\"kid\":\"k1\",\"alg\":\"HS256\"\x7d" := by
  constructor
  · obtain ⟨hc, _⟩ := newToken_spec alg kid raw encSigLen none
    rw [hc]
    unfold effHeader
    rw [Option.getD_none]
    unfold headerJSONFor
    rw [if_neg hkid]
  · decide

/-- C5 witness. -/
theorem C5_slow_path_header_witness :
    ("k1" : String) ≠ "" ∧
    ((newToken "HS256" "k1" [] 0 none).1
      = Encode (strBytes "\x7b\"kid\":" ++ AppendQuote "k1" ++ strBytes ",\"alg\":"
          ++ AppendQuote "HS256" ++ [125]) ++ [46] ++ Encode [] ∧
     headerJSONFor "k1" "HS256" = strBytes "\x7b\"kid\":\"k1\",\"alg\":\"HS256\"\x7d") :=
  ⟨by decide, C5_slow_path_header "HS256" "k1" [] 0 (by decide)⟩

/-- C6: `HMACSign` with a zero-length secret returns no token and the
`SecretRequiredError`, before any other work — the result is the same for
every outcome of the claims serializer and of the algorithm lookup, so an
invalid algorithm or a serialization failure still yields the
empty-secret error. -/
theorem C6_empty_secret_first (alg kid : String) (raw secret : List Nat)
    (syncRes : Except JErr (Option (List Nat))) (lookupRes : Except JErr Unit)
    (mac : List Nat) (hsec : secret = []) :
    HMACSign alg kid raw secret syncRes lookupRes mac = (none, some JErr.noSecret) := by
  subst hsec
  unfold HMACSign
  rw [if_pos (show ([] : List Nat).length = 0 from rfl)]

/-- C6 witness: the secret check wins even when both the algorithm is
invalid and the claims serialization failed. -/
theorem C6_empty_secret_first_witness :
    ([] : List Nat) = [] ∧
    HMACSign "bogus" "" [] [] (Except.error JErr.serializeErr)
      (Except.error (JErr.algErr "bogus")) []
      = (none, some JErr.noSecret) :=
  ⟨rfl, C6_empty_secret_first "bogus" "" [] [] (Except.error JErr.serializeErr)
    (Except.error (JErr.algErr "bogus")) [] rfl⟩


/-- C7: every successful signing call returns
`seg1 ++ "." ++ seg2 ++ "." ++ seg3` where the three segments are
base64url encodings (whose characters all lie in the base64url alphabet,
which does not contain `.` and has no padding), and `FormatWithoutSign`
returns exactly the two-segment unsigned prefix via the same `newToken`
path with `encSigLen = 0`. -/
theorem C7_token_shape (alg kid : String) (raw : List Nat)
    (headerJSON : Option (List Nat)) (secret mac : List Nat) (keySize : Nat)
    (rsaSig edSig : List Nat) (wb p r s : Nat)
    (sigOf : RSAScheme → Except JErr (List Nat))
    (hsec : secret ≠ [])
    (hrsa : sigOf (rsaScheme alg) = Except.ok rsaSig) (hrsaLen : rsaSig.length = keySize)
    (hedLen : edSig.length = 64)
    (hwb : wb = 4 ∨ wb = 8) (hp : p = 32 ∨ p = 48 ∨ p = 66)
    (hr : r < 2 ^ (8 * p)) (hs : s < 2 ^ (8 * p)) :
    (HMACSign alg kid raw secret (Except.ok headerJSON) (Except.ok ()) mac
      = (some (Encode (effHeader alg kid headerJSON) ++ [46] ++ Encode raw ++ [46]
          ++ Encode mac), none)) ∧
    (RSASign alg kid raw keySize (Except.ok headerJSON) (Except.ok ()) sigOf
      = some (some (Encode (effHeader alg kid headerJSON) ++ [46] ++ Encode raw ++ [46]
          ++ Encode rsaSig), none)) ∧
    (EdDSASign kid raw (Except.ok headerJSON) edSig
      = some (some (Encode (effHeader EdDSA kid headerJSON) ++ [46] ++ Encode raw ++ [46]
          ++ Encode edSig), none)) ∧
    (ECDSASign alg kid raw wb p (Except.ok headerJSON) (Except.ok ()) (Except.ok (r, s))
      = some (some (Encode (effHeader alg kid headerJSON) ++ [46] ++ Encode raw ++ [46]
          ++ Encode (bePad p r ++ bePad p s)), none)) ∧
    (FormatWithoutSign alg kid raw (Except.ok headerJSON)
      = (some (Encode (effHeader alg kid headerJSON) ++ [46] ++ Encode raw), none)) ∧
    (∀ l : List Nat, ∀ c ∈ Encode l, isB64url c = true) ∧
    isB64url 46 = false := by
  rw [pow256] at hr hs
  refine ⟨?_, ?_, ?_, ?_, ?_, Encode_isB64url, rfl⟩
  · have hlen0 : ¬(secret.length = 0) := fun h0 => hsec (List.length_eq_zero.mp h0)
    unfold HMACSign
    rw [if_neg hlen0]
    show (some ((newToken alg kid raw (EncodedLen mac.length) headerJSON).1
      ++ [46] ++ encodeTail mac), none) = _
    rw [encodeTail_eq, (newToken_spec alg kid raw (EncodedLen mac.length) headerJSON).1]
  · unfold RSASign
    show (match sigOf (rsaScheme alg) with
      | Except.error e => some (none, some e)
      | Except.ok sig =>
        if EncodedLen keySize < EncodedLen sig.length then none
        else some (some ((newToken alg kid raw (EncodedLen keySize) headerJSON).1
          ++ [46] ++ Encode sig
          ++ List.replicate (EncodedLen keySize - EncodedLen sig.length) 0), none)) = _
    rw [hrsa]
    show (if EncodedLen keySize < EncodedLen rsaSig.length then none
      else some (some ((newToken alg kid raw (EncodedLen keySize) headerJSON).1
        ++ [46] ++ Encode rsaSig
        ++ List.replicate (EncodedLen keySize - EncodedLen rsaSig.length) 0), none)) = _
    rw [hrsaLen, if_neg (lt_irrefl (EncodedLen keySize)), Nat.sub_self,
      List.replicate_zero, List.append_nil,
      (newToken_spec alg kid raw (EncodedLen keySize) headerJSON).1]
  · unfold EdDSASign
    show (if EncodedLen 64 < EncodedLen edSig.length then none
      else some (some ((newToken EdDSA kid raw (EncodedLen 64) headerJSON).1
        ++ [46] ++ Encode edSig
        ++ List.replicate (EncodedLen 64 - EncodedLen edSig.length) 0), none)) = _
    rw [hedLen, if_neg (lt_irrefl (EncodedLen 64)), Nat.sub_self,
      List.replicate_zero, List.append_nil,
      (newToken_spec EdDSA kid raw (EncodedLen 64) headerJSON).1]
  · unfold ECDSASign
    show ((ecdsaTail wb p r s).map (fun tail =>
      (some ((newToken alg kid raw (EncodedLen (2 * p)) headerJSON).1
        ++ [46] ++ tail), none))) = _
    rw [ecdsaTail_eq wb p r s hwb hp hr hs, Option.map_some',
      (newToken_spec alg kid raw (EncodedLen (2 * p)) headerJSON).1]
  · unfold FormatWithoutSign
    show (some (newToken alg kid raw 0 headerJSON).1, none) = _
    rw [(newToken_spec alg kid raw 0 headerJSON).1]

/-- C7 witness. -/
theorem C7_token_shape_witness :
    ([1] : List Nat) ≠ [] ∧ ((8 : Nat) = 4 ∨ (8 : Nat) = 8) ∧
    ((32 : Nat) = 32 ∨ (32 : Nat) = 48 ∨ (32 : Nat) = 66) ∧
    (1 : Nat) < 2 ^ (8 * 32) ∧ (2 : Nat) < 2 ^ (8 * 32) ∧
    HMACSign "HS256" "" [] [1] (Except.ok none) (Except.ok ()) [2]
      = (some (Encode (effHeader "HS256" "" none) ++ [46] ++ Encode [] ++ [46]
          ++ Encode [2]), none) :=
  ⟨by decide, Or.inr rfl, Or.inl rfl, by decide, by decide,
    (C7_token_shape "HS256" "" [] none [1] [2] 2 [3, 4] (List.replicate 64 0)
      8 32 1 2 (fun _ => Except.ok [3, 4]) (by decide) rfl (by decide) (by decide)
      (Or.inr rfl) (Or.inl rfl) (by decide) (by decide)).1⟩

/-- C8: the RSA padding scheme is selected by the identifier's first
character — `P` gives PSS (PS256, PS384, PS512), anything else PKCS#1
v1.5 (RS256, RS384, RS512) — and the reserved signature capacity
`encodedLen(key.Size())` is exactly the encoded length of a raw signature
of the key's modulus byte size, with the capacity equation of `newToken`
sized from it. -/
theorem C8_rsa_dispatch_and_capacity (keySize : Nat) :
    rsaScheme PS256 = RSAScheme.PSS ∧ rsaScheme PS384 = RSAScheme.PSS ∧
    rsaScheme PS512 = RSAScheme.PSS ∧ rsaScheme RS256 = RSAScheme.PKCS1v15 ∧
    rsaScheme RS384 = RSAScheme.PKCS1v15 ∧ rsaScheme RS512 = RSAScheme.PKCS1v15 ∧
    (∀ alg, alg ∈ RSAAlgs →
      (rsaScheme alg = RSAScheme.PSS ↔ (strBytes alg).getD 0 0 = 80)) ∧
    (∀ sig : List Nat, sig.length = keySize → (Encode sig).length = EncodedLen keySize) ∧
    (∀ alg kid : String, ∀ raw : List Nat, ∀ h : Option (List Nat),
      (newToken alg kid raw (EncodedLen keySize) h).2
        = (newToken alg kid raw (EncodedLen keySize) h).1.length + 1
          + EncodedLen keySize) := by
  refine ⟨by decide, by decide, by decide, by decide, by decide, by decide, ?_, ?_, ?_⟩
  · intro alg h
    simp only [RSAAlgs, List.mem_cons, List.not_mem_nil, or_false] at h
    rcases h with rfl | rfl | rfl | rfl | rfl | rfl
    all_goals decide
  · intro sig hsig
    rw [length_Encode, hsig]
  · intro alg kid raw h
    exact (newToken_spec alg kid raw (EncodedLen keySize) h).2

/-- C8 witness. -/
theorem C8_rsa_dispatch_and_capacity_witness :
    rsaScheme PS256 = RSAScheme.PSS ∧
    ([9, 9] : List Nat).length = 2 ∧ (Encode [9, 9]).length = EncodedLen 2 :=
  ⟨(C8_rsa_dispatch_and_capacity 2).1, rfl,
    (C8_rsa_dispatch_and_capacity 2).2.2.2.2.2.2.2.1 [9, 9] rfl⟩

/-- C9: in all four signing functions and in `FormatWithoutSign`, every
error outcome comes with a nil token: whenever the error component is
set, the token component is `none`. -/
theorem C9_errors_return_nil (alg kid : String) (raw secret mac edSig : List Nat)
    (keySize wb p : Nat)
    (syncRes : Except JErr (Option (List Nat))) (lookupRes : Except JErr Unit)
    (sigOf : RSAScheme → Except JErr (List Nat)) (signRes : Except JErr (Nat × Nat)) :
    (∀ e, (HMACSign alg kid raw secret syncRes lookupRes mac).2 = some e →
      (HMACSign alg kid raw secret syncRes lookupRes mac).1 = none) ∧
    (∀ ret e, RSASign alg kid raw keySize syncRes lookupRes sigOf = some ret →
      ret.2 = some e → ret.1 = none) ∧
    (∀ ret e, EdDSASign kid raw syncRes edSig = some ret →
      ret.2 = some e → ret.1 = none) ∧
    (∀ ret e, ECDSASign alg kid raw wb p syncRes lookupRes signRes = some ret →
      ret.2 = some e → ret.1 = none) ∧
    (∀ e, (FormatWithoutSign alg kid raw syncRes).2 = some e →
      (FormatWithoutSign alg kid raw syncRes).1 = none) := by
  refine ⟨?_, ?_, ?_, ?_, ?_⟩
  · intro e he
    unfold HMACSign at he ⊢
    by_cases hz : secret.length = 0
    · rw [if_pos hz]
    · rw [if_neg hz] at he ⊢
      cases syncRes with
      | error e2 => rfl
      | ok h =>
          cases lookupRes with
          | error e2 => rfl
          | ok u => exact absurd he (by simp)
  · intro ret e hret h2
    unfold RSASign at hret
    cases syncRes with
    | error e2 => injection hret with h3; subst h3; rfl
    | ok h =>
        cases lookupRes with
        | error e2 => injection hret with h3; subst h3; rfl
        | ok u =>
            cases hsig : sigOf (rsaScheme alg) with
            | error e2 => rw [hsig] at hret; injection hret with h3; subst h3; rfl
            | ok sig =>
                rw [hsig] at hret
                dsimp only [] at hret
                by_cases hfit : EncodedLen keySize < EncodedLen sig.length
                · rw [if_pos hfit] at hret
                  exact Option.noConfusion hret
                · rw [if_neg hfit] at hret
                  injection hret with h3
                  subst h3
                  exact absurd h2 (by simp)
  · intro ret e hret h2
    unfold EdDSASign at hret
    cases syncRes with
    | error e2 => injection hret with h3; subst h3; rfl
    | ok h =>
        dsimp only [] at hret
        by_cases hfit : EncodedLen 64 < EncodedLen edSig.length
        · rw [if_pos hfit] at hret
          exact Option.noConfusion hret
        · rw [if_neg hfit] at hret
          injection hret with h3
          subst h3
          exact absurd h2 (by simp)
  · intro ret e hret h2
    unfold ECDSASign at hret
    cases syncRes with
    | error e2 => injection hret with h3; subst h3; rfl
    | ok h =>
        cases lookupRes with
        | error e2 => injection hret with h3; subst h3; rfl
        | ok u =>
            cases signRes with
            | error e2 => injection hret with h3; subst h3; rfl
            | ok rs =>
                obtain ⟨r, s⟩ := rs
                dsimp only [] at hret
                cases htail : ecdsaTail wb p r s with
                | none =>
                    rw [htail, Option.map_none'] at hret
                    exact Option.noConfusion hret
                | some tail =>
                    rw [htail, Option.map_some'] at hret
                    injection hret with h3
                    subst h3
                    exact absurd h2 (by simp)
  · intro e he
    unfold FormatWithoutSign at he ⊢
    cases syncRes with
    | error e2 => rfl
    | ok h => exact absurd he (by simp)

/-- C9 witness. -/
theorem C9_errors_return_nil_witness :
    (HMACSign "HS256" "" [] [1] (Except.error JErr.serializeErr) (Except.ok ()) []).2
      = some JErr.serializeErr ∧
    (HMACSign "HS256" "" [] [1] (Except.error JErr.serializeErr) (Except.ok ()) []).1
      = none :=
  ⟨by decide,
    (C9_errors_return_nil "HS256" "" [] [1] [] [] 0 8 32
      (Except.error JErr.serializeErr) (Except.ok ())
      (fun _ => Except.error JErr.primitiveErr) (Except.error JErr.primitiveErr)).1
      JErr.serializeErr (by decide)⟩

end JwtSign
